import Mathlib

/-!
Verification of `libIntegrate`'s `_1D::SimpsonRule` (src/libIntegrate/_1D/SimpsonRule.hpp)
against its natural-language specification.

The scalar type `T` is modelled by `ℚ` (exact field arithmetic); the vector-like
containers (`operator[]`, `.size()`) are modelled by `List ℚ` with indexed access
`gD` (out-of-range access is undefined behavior in the source, so the default
value never matters under the documented preconditions).

The four entry points:
  * `simpsonFn`      — `T operator()(F f, T a, T b, std::size_t N)` (runtime N)
  * `simpsonFnFixed` — `T operator()(F f, T a, T b)` (compile-time NN)
  * `simpsonDataNonuniform` — `operator()(const X& x, const Y& y)`
  * `simpsonDataUniform`    — `operator()(const Y& y, T dx)`
-/

/-- Indexed container access `c[i]`. -/
def gD (l : List ℚ) (i : ℕ) : ℚ := l.getD i 0

/-- `SimpsonRule::LagrangePolynomial(T x, T A, T B, T C)`:
`(x - A) * (x - B) / (C - A) / (C - B)`. -/
def LagrangePolynomial (x A B C : ℚ) : ℚ :=
  (x - A) * (x - B) / (C - A) / (C - B)

/-- The interpolated value `ym` computed in `operator()(const X&, const Y&)`:
`y0*L(m,x1,x2,x0) + y1*L(m,x0,x2,x1) + y2*L(m,x0,x1,x2)`. -/
def interpAt (m x0 x1 x2 y0 y1 y2 : ℚ) : ℚ :=
  y0 * LagrangePolynomial m x1 x2 x0
    + y1 * LagrangePolynomial m x0 x2 x1
    + y2 * LagrangePolynomial m x0 x1 x2

/-- One iteration of the main loop of `operator()(const X&, const Y&)`:
`m = (x[i]+x[i+2])/2`, interpolate `ym`, add `(x[i+2]-x[i])/6 * (y[i]+4*ym+y[i+2])`. -/
def tripleContrib (x0 x1 x2 y0 y1 y2 : ℚ) : ℚ :=
  (x2 - x0) / 6 * (y0 + 4 * interpAt ((x0 + x2) / 2) x0 x1 x2 y0 y1 y2 + y2)

/-- The loop `for (i = 0; i < x.size() - 2; i += 2)` of
`operator()(const X&, const Y&)`, started at index `i`. -/
def simpsonLoopC (x y : List ℚ) (i : ℕ) : ℚ :=
  if h : i < x.length - 2 then
    tripleContrib (gD x i) (gD x (i+1)) (gD x (i+2)) (gD y i) (gD y (i+1)) (gD y (i+2))
      + simpsonLoopC x y (i + 2)
  else 0
termination_by x.length - i
decreasing_by omega

/-- The tail branch of `operator()(const X&, const Y&)`: `i = x.size()-3`,
`m = (x[i+1]+x[i+2])/2`, interpolate through the last three points, add
`(x[i+2]-x[i+1])/6 * (y[i+1] + 4*ym + y[i+2])`. -/
def tailContribC (x y : List ℚ) : ℚ :=
  let i := x.length - 3
  (gD x (i+2) - gD x (i+1)) / 6 *
    (gD y (i+1)
      + 4 * interpAt ((gD x (i+1) + gD x (i+2)) / 2)
              (gD x i) (gD x (i+1)) (gD x (i+2)) (gD y i) (gD y (i+1)) (gD y (i+2))
      + gD y (i+2))

/-- `operator()(const X& x, const Y& y)`: Operation C (discretized, non-uniform
spacing). -/
def simpsonDataNonuniform (x y : List ℚ) : ℚ :=
  let sum := simpsonLoopC x y 0
  if x.length % 2 = 0 then
    if 2 < x.length then sum + tailContribC x y else sum
  else sum

/-- The loop `for (i = 0; i < y.size()-2; i+=2) sum += y[i]+4*y[i+1]+y[i+2]` of
`operator()(const Y&, T)`, started at index `i`. -/
def simpsonLoopD (y : List ℚ) (i : ℕ) : ℚ :=
  if h : i < y.length - 2 then
    (gD y i + 4 * gD y (i+1) + gD y (i+2)) + simpsonLoopD y (i + 2)
  else 0
termination_by y.length - i
decreasing_by omega

/-- The tail branch of `operator()(const Y&, T)`: `i = y.size()-3`,
`ym = y[i]*L(3dx/2,dx,2dx,0) + y[i+1]*L(3dx/2,0,2dx,dx) + y[i+2]*L(3dx/2,0,dx,2dx)`,
add `dx/6 * (y[i+1] + 4*ym + y[i+2])`. -/
def tailContribD (y : List ℚ) (dx : ℚ) : ℚ :=
  let i := y.length - 3
  let ym := gD y i * LagrangePolynomial (3*dx/2) dx (2*dx) 0
      + gD y (i+1) * LagrangePolynomial (3*dx/2) 0 (2*dx) dx
      + gD y (i+2) * LagrangePolynomial (3*dx/2) 0 dx (2*dx)
  dx/6 * (gD y (i+1) + 4 * ym + gD y (i+2))

/-- `operator()(const Y& y, T dx)`: Operation D (discretized, uniform spacing). -/
def simpsonDataUniform (y : List ℚ) (dx : ℚ) : ℚ :=
  let sum := simpsonLoopD y 0 * (dx / 3)
  if y.length % 2 = 0 then sum + tailContribD y dx else sum

/-- The loop of `operator()(F f, T a, T b, std::size_t N)`: `n` remaining
iterations, current abscissa `x`, accumulating
`f(x) + 4*f(x + dx/2) + f(x + dx)` and stepping `x += dx`. -/
def simpsonLoopF (f : ℚ → ℚ) (dx : ℚ) : ℕ → ℚ → ℚ
  | 0, _ => 0
  | n + 1, x => (f x + 4 * f (x + dx/2) + f (x + dx)) + simpsonLoopF f dx n (x + dx)

/-- `operator()(F f, T a, T b, std::size_t N)`: Operation A (continuous, runtime
subdivision count): `dx = (b-a)/N`, accumulate over `N` sub-intervals, scale by
`dx/6`. -/
def simpsonFn (f : ℚ → ℚ) (a b : ℚ) (N : ℕ) : ℚ :=
  let dx := (b - a) / (N : ℚ)
  simpsonLoopF f dx N a * (dx / 6)

/-- The loop of `operator()(F f, T a, T b)` (the compile-time-`NN` overload);
the body is textually identical to the runtime-`N` overload's loop. -/
def simpsonLoopFFixed (f : ℚ → ℚ) (dx : ℚ) : ℕ → ℚ → ℚ
  | 0, _ => 0
  | n + 1, x => (f x + 4 * f (x + dx/2) + f (x + dx)) + simpsonLoopFFixed f dx n (x + dx)

/-- `operator()(F f, T a, T b)`: Operation B (continuous, subdivision count `NN`
fixed at instantiation). -/
def simpsonFnFixed (f : ℚ → ℚ) (a b : ℚ) (NN : ℕ) : ℚ :=
  let dx := (b - a) / (NN : ℚ)
  simpsonLoopFFixed f dx NN a * (dx / 6)

lemma two_mul_lt_iff (n k : ℕ) : 2*k < n - 2 ↔ k < (n-1)/2 := by omega

lemma simpsonLoopD_eq_sum_aux (y : List ℚ) :
    ∀ m j, (y.length - 1) / 2 - j ≤ m →
      simpsonLoopD y (2 * j) =
        ∑ k in Finset.Ico j ((y.length - 1) / 2),
          (gD y (2*k) + 4 * gD y (2*k+1) + gD y (2*k+2)) := by
  intro m
  induction m with
  | zero =>
    intro j hj
    rw [simpsonLoopD, dif_neg (by omega), Finset.Ico_eq_empty (by omega), Finset.sum_empty]
  | succ m ih =>
    intro j hj
    by_cases h : 2*j < y.length - 2
    · rw [simpsonLoopD, dif_pos h]
      have e : 2*j + 2 = 2*(j+1) := by ring
      rw [e, ih (j+1) (by omega)]
      conv_rhs => rw [Finset.sum_eq_sum_Ico_succ_bot (by omega : j < (y.length-1)/2)]
      rw [show 2*(j+1) = 2*j+2 from by ring]
    · rw [simpsonLoopD, dif_neg h, Finset.Ico_eq_empty (by omega), Finset.sum_empty]

lemma simpsonLoopD_eq_sum (y : List ℚ) :
    simpsonLoopD y 0 =
      ∑ k in Finset.range ((y.length - 1) / 2),
        (gD y (2*k) + 4 * gD y (2*k+1) + gD y (2*k+2)) := by
  have h := simpsonLoopD_eq_sum_aux y ((y.length - 1) / 2) 0 (by omega)
  simp only [Nat.mul_zero] at h
  rw [Finset.range_eq_Ico]
  exact h

lemma simpsonLoopC_eq_sum_aux (x y : List ℚ) :
    ∀ m j, (x.length - 1) / 2 - j ≤ m →
      simpsonLoopC x y (2 * j) =
        ∑ k in Finset.Ico j ((x.length - 1) / 2),
          tripleContrib (gD x (2*k)) (gD x (2*k+1)) (gD x (2*k+2))
            (gD y (2*k)) (gD y (2*k+1)) (gD y (2*k+2)) := by
  intro m
  induction m with
  | zero =>
    intro j hj
    rw [simpsonLoopC, dif_neg (by omega), Finset.Ico_eq_empty (by omega), Finset.sum_empty]
  | succ m ih =>
    intro j hj
    by_cases h : 2*j < x.length - 2
    · rw [simpsonLoopC, dif_pos h]
      have e : 2*j + 2 = 2*(j+1) := by ring
      rw [e, ih (j+1) (by omega)]
      conv_rhs => rw [Finset.sum_eq_sum_Ico_succ_bot (by omega : j < (x.length-1)/2)]
      rw [show 2*(j+1) = 2*j+2 from by ring]
    · rw [simpsonLoopC, dif_neg h, Finset.Ico_eq_empty (by omega), Finset.sum_empty]

lemma simpsonLoopC_eq_sum (x y : List ℚ) :
    simpsonLoopC x y 0 =
      ∑ k in Finset.range ((x.length - 1) / 2),
        tripleContrib (gD x (2*k)) (gD x (2*k+1)) (gD x (2*k+2))
          (gD y (2*k)) (gD y (2*k+1)) (gD y (2*k+2)) := by
  have h := simpsonLoopC_eq_sum_aux x y ((x.length - 1) / 2) 0 (by omega)
  simp only [Nat.mul_zero] at h
  rw [Finset.range_eq_Ico]
  exact h

lemma simpsonLoopF_eq_sum (f : ℚ → ℚ) (dx : ℚ) :
    ∀ (n : ℕ) (x : ℚ), simpsonLoopF f dx n x
      = ∑ i in Finset.range n,
          (f (x + i*dx) + 4 * f (x + i*dx + dx/2) + f (x + i*dx + dx)) := by
  intro n
  induction n with
  | zero => intro x; simp [simpsonLoopF]
  | succ n ih =>
    intro x
    rw [Finset.sum_range_succ']
    simp only [simpsonLoopF]
    rw [ih (x + dx)]
    push_cast
    have hterm : f x + 4 * f (x + dx/2) + f (x + dx)
        = f (x + 0*dx) + 4 * f (x + 0*dx + dx/2) + f (x + 0*dx + dx) := by norm_num
    rw [hterm, add_comm]
    congr 1
    apply Finset.sum_congr rfl
    intro i _
    have a1 : x + dx + (i:ℚ)*dx = x + ((i:ℚ)+1)*dx := by ring
    rw [a1]

/-- Spec-side form of "the unique quadratic (Lagrange) polynomial through the
three points (x0,y0), (x1,y1), (x2,y2), evaluated at t", written in Newton
divided-difference form (a representation independent of the code's Lagrange
basis products). -/
def newtonQuadEval (x0 x1 x2 y0 y1 y2 t : ℚ) : ℚ :=
  y0 + (y1 - y0) / (x1 - x0) * (t - x0)
    + ((y2 - y1) / (x2 - x1) - (y1 - y0) / (x1 - x0)) / (x2 - x0) * (t - x0) * (t - x1)

lemma newton_interp_left (x0 x1 x2 y0 y1 y2 : ℚ) :
    newtonQuadEval x0 x1 x2 y0 y1 y2 x0 = y0 := by
  unfold newtonQuadEval; simp

lemma newton_interp_mid (x0 x1 x2 y0 y1 y2 : ℚ) (h01 : x0 ≠ x1) :
    newtonQuadEval x0 x1 x2 y0 y1 y2 x1 = y1 := by
  have a1 : x1 - x0 ≠ 0 := sub_ne_zero.mpr (Ne.symm h01)
  unfold newtonQuadEval
  field_simp

lemma newton_interp_right (x0 x1 x2 y0 y1 y2 : ℚ)
    (h01 : x0 ≠ x1) (h02 : x0 ≠ x2) (h12 : x1 ≠ x2) :
    newtonQuadEval x0 x1 x2 y0 y1 y2 x2 = y2 := by
  have a1 : x1 - x0 ≠ 0 := sub_ne_zero.mpr (Ne.symm h01)
  have a2 : x2 - x0 ≠ 0 := sub_ne_zero.mpr (Ne.symm h02)
  have a3 : x2 - x1 ≠ 0 := sub_ne_zero.mpr (Ne.symm h12)
  unfold newtonQuadEval
  field_simp
  ring

/-- Any polynomial of degree at most 2 through the three points agrees with the
Newton form everywhere: `newtonQuadEval` really is "the unique quadratic". -/
lemma newton_unique (A B C x0 x1 x2 y0 y1 y2 t : ℚ)
    (h01 : x0 ≠ x1) (h02 : x0 ≠ x2) (h12 : x1 ≠ x2)
    (hy0 : y0 = A*x0^2 + B*x0 + C) (hy1 : y1 = A*x1^2 + B*x1 + C)
    (hy2 : y2 = A*x2^2 + B*x2 + C) :
    newtonQuadEval x0 x1 x2 y0 y1 y2 t = A*t^2 + B*t + C := by
  have a1 : x1 - x0 ≠ 0 := sub_ne_zero.mpr (Ne.symm h01)
  have a2 : x2 - x0 ≠ 0 := sub_ne_zero.mpr (Ne.symm h02)
  have a3 : x2 - x1 ≠ 0 := sub_ne_zero.mpr (Ne.symm h12)
  subst hy0 hy1 hy2
  unfold newtonQuadEval
  field_simp
  ring

/-- The code's Lagrange-basis combination agrees with the Newton form of the
interpolating quadratic whenever the three abscissas are pairwise distinct. -/
lemma interp_eq_newton (m x0 x1 x2 y0 y1 y2 : ℚ)
    (h01 : x0 ≠ x1) (h02 : x0 ≠ x2) (h12 : x1 ≠ x2) :
    interpAt m x0 x1 x2 y0 y1 y2 = newtonQuadEval x0 x1 x2 y0 y1 y2 m := by
  have a1 : x1 - x0 ≠ 0 := sub_ne_zero.mpr (Ne.symm h01)
  have a2 : x2 - x0 ≠ 0 := sub_ne_zero.mpr (Ne.symm h02)
  have a3 : x2 - x1 ≠ 0 := sub_ne_zero.mpr (Ne.symm h12)
  have a4 : x0 - x1 ≠ 0 := sub_ne_zero.mpr h01
  have a5 : x0 - x2 ≠ 0 := sub_ne_zero.mpr h02
  have a6 : x1 - x2 ≠ 0 := sub_ne_zero.mpr h12
  unfold interpAt newtonQuadEval LagrangePolynomial
  field_simp
  ring

lemma interp_uniform_mid (a dx y0 y1 y2 : ℚ) (hdx : dx ≠ 0) :
    interpAt ((a + (a+2*dx))/2) a (a+dx) (a+2*dx) y0 y1 y2 = y1 := by
  unfold interpAt LagrangePolynomial
  have e1 : a + (a+2*dx) = 2*(a+dx) := by ring
  rw [e1]
  have e2 : 2*(a+dx)/2 = a + dx := by ring
  rw [e2]
  simp only [sub_self, zero_mul, mul_zero, zero_div, div_zero, add_zero, zero_add]
  have d1 : a + dx - a ≠ 0 := by intro hc; apply hdx; linarith
  have d2 : a + dx - (a + 2*dx) ≠ 0 := by intro hc; apply hdx; linarith
  have d3 : dx - 2*dx ≠ 0 := by intro hc; apply hdx; linarith
  field_simp

lemma interp_midpoint_collapse (x0 x2 y0 y1 y2 : ℚ) (h02 : x0 ≠ x2) :
    interpAt ((x0+x2)/2) x0 ((x0+x2)/2) x2 y0 y1 y2 = y1 := by
  unfold interpAt LagrangePolynomial
  simp only [sub_self, zero_mul, mul_zero, zero_div, div_zero, add_zero, zero_add]
  have h1 : (x0+x2)/2 - x0 ≠ 0 := by intro hc; apply h02; linarith
  have h2 : (x0+x2)/2 - x2 ≠ 0 := by intro hc; apply h02; linarith
  have hA : x0 + x2 - 2*x0 ≠ 0 := by intro hc; apply h02; linarith
  have hB : x0 + x2 - 2*x2 ≠ 0 := by intro hc; apply h02; linarith
  field_simp
  exact Or.inl (by ring)

/-- With uniform abscissas the interpolation at the midpoint of the last two
points reduces to the hard-coded (0, dx, 2dx, target 3dx/2) construction. -/
lemma interp_tail_uniform (a dx y0 y1 y2 : ℚ) :
    interpAt (((a+dx) + (a+2*dx))/2) a (a+dx) (a+2*dx) y0 y1 y2
      = interpAt (3*dx/2) 0 dx (2*dx) y0 y1 y2 := by
  unfold interpAt LagrangePolynomial
  ring_nf

/-- Spec-side contribution of one full triple (Operation C): width
`(x[i+2]-x[i])/6`, endpoint values and the unique quadratic through the three
points evaluated at the true midpoint `(x[i]+x[i+2])/2`. -/
def specTriple (x0 x1 x2 y0 y1 y2 : ℚ) : ℚ :=
  (x2 - x0) / 6 * (y0 + 4 * newtonQuadEval x0 x1 x2 y0 y1 y2 ((x0 + x2)/2) + y2)

/-- Operation C as worded by the spec: sum over i = 0, 2, 4, … while i < n-2
(that is, over `k < (n-1)/2` with `i = 2k`) of the Simpson term with the true
midpoint interpolant, plus — exactly when n is even and n > 2 — the tail term
over the last pair, interpolating through the last three points at the midpoint
of the last two. -/
def specSimpsonC (x y : List ℚ) : ℚ :=
  (∑ k in Finset.range ((x.length - 1) / 2),
      specTriple (gD x (2*k)) (gD x (2*k+1)) (gD x (2*k+2))
        (gD y (2*k)) (gD y (2*k+1)) (gD y (2*k+2)))
    + if x.length % 2 = 0 ∧ 2 < x.length then
        (gD x (x.length-1) - gD x (x.length-2)) / 6 *
          (gD y (x.length-2)
            + 4 * newtonQuadEval (gD x (x.length-3)) (gD x (x.length-2)) (gD x (x.length-1))
                    (gD y (x.length-3)) (gD y (x.length-2)) (gD y (x.length-1))
                    ((gD x (x.length-2) + gD x (x.length-1))/2)
            + gD y (x.length-1))
      else 0

/-- Operation D as worded by the spec: `(dx/3) ·` the accumulated sum of
`y[i] + 4y[i+1] + y[i+2]` over the full triples, plus — exactly when n is even —
a separate `(dx/6)`-scaled tail using the quadratic through the last three
samples at local offsets 0, dx, 2dx, evaluated at 3dx/2. -/
def specSimpsonD (y : List ℚ) (dx : ℚ) : ℚ :=
  dx/3 * (∑ k in Finset.range ((y.length - 1) / 2),
      (gD y (2*k) + 4 * gD y (2*k+1) + gD y (2*k+2)))
    + if y.length % 2 = 0 then
        dx/6 * (gD y (y.length-2)
          + 4 * newtonQuadEval 0 dx (2*dx)
                  (gD y (y.length-3)) (gD y (y.length-2)) (gD y (y.length-1)) (3*dx/2)
          + gD y (y.length-1))
      else 0

/-- Evenly spaced abscissas `x[i] = x0 + i*dx`, `i < n`. -/
def uniformAbscissas (x0 dx : ℚ) (n : ℕ) : List ℚ :=
  (List.range n).map (fun i : ℕ => x0 + (i : ℚ)*dx)

lemma pairwise_gD {R : ℚ → ℚ → Prop} {x : List ℚ} (h : x.Pairwise R) {i j : ℕ}
    (hij : i < j) (hj : j < x.length) : R (gD x i) (gD x j) := by
  rw [List.pairwise_iff_get] at h
  have hi : i < x.length := lt_trans hij hj
  have hR := h ⟨i, hi⟩ ⟨j, hj⟩ hij
  rw [gD, gD, List.getD_eq_getElem _ _ hi, List.getD_eq_getElem _ _ hj]
  simpa [List.get_eq_getElem] using hR

/-- Strict monotonicity (in either direction) gives pairwise distinct entries. -/
lemma gD_ne_of_mono {x : List ℚ}
    (hmono : x.Pairwise (· < ·) ∨ x.Pairwise (· > ·)) {i j : ℕ}
    (hij : i < j) (hj : j < x.length) : gD x i ≠ gD x j := by
  cases hmono with
  | inl h => exact ne_of_lt (pairwise_gD h hij hj)
  | inr h => exact ne_of_gt (pairwise_gD h hij hj)

lemma uniformAbscissas_length (x0 dx : ℚ) (n : ℕ) :
    (uniformAbscissas x0 dx n).length = n := by
  rw [uniformAbscissas, List.length_map, List.length_range]

lemma gD_uniformAbscissas (x0 dx : ℚ) {n i : ℕ} (hi : i < n) :
    gD (uniformAbscissas x0 dx n) i = x0 + (i : ℚ)*dx := by
  rw [gD, uniformAbscissas]
  have hlen : i < ((List.range n).map (fun j : ℕ => x0 + (j : ℚ)*dx)).length := by
    rw [List.length_map, List.length_range]; exact hi
  rw [List.getD_eq_getElem _ _ hlen, List.getElem_map, List.getElem_range]

lemma simpsonLoopFFixed_eq (f : ℚ → ℚ) (dx : ℚ) :
    ∀ (n : ℕ) (x : ℚ), simpsonLoopFFixed f dx n x = simpsonLoopF f dx n x := by
  intro n
  induction n with
  | zero => intro x; rfl
  | succ n ih =>
    intro x
    simp only [simpsonLoopFFixed, simpsonLoopF]
    rw [ih (x + dx)]

/-- A cubic polynomial `c0 + c1 t + c2 t² + c3 t³`. -/
def cubicEval (c0 c1 c2 c3 t : ℚ) : ℚ := c0 + c1*t + c2*t^2 + c3*t^3

/-- Its antiderivative vanishing at 0; the analytic integral over `[a,b]` is
`cubicPrim … b - cubicPrim … a`. -/
def cubicPrim (c0 c1 c2 c3 t : ℚ) : ℚ := c0*t + c1*t^2/2 + c2*t^3/3 + c3*t^4/4

lemma simpsonLoopF_cubic (c0 c1 c2 c3 dx : ℚ) :
    ∀ (n : ℕ) (x : ℚ),
      simpsonLoopF (cubicEval c0 c1 c2 c3) dx n x * (dx/6)
        = cubicPrim c0 c1 c2 c3 (x + n*dx) - cubicPrim c0 c1 c2 c3 x := by
  intro n
  induction n with
  | zero => intro x; simp [simpsonLoopF]
  | succ n ih =>
    intro x
    simp only [simpsonLoopF]
    rw [add_mul, ih (x + dx)]
    simp only [cubicEval, cubicPrim]
    push_cast
    ring

lemma tripleContrib_uniform (a dx y0 y1 y2 : ℚ) (hdx : dx ≠ 0) :
    tripleContrib a (a+dx) (a+2*dx) y0 y1 y2 = dx/3 * (y0 + 4*y1 + y2) := by
  rw [tripleContrib, interp_uniform_mid a dx y0 y1 y2 hdx]
  ring

/-- C3: Operation A returns `(dx/6) · Σ_{i<N} (f(xᵢ) + 4 f(xᵢ+dx/2) + f(xᵢ+dx))`
with `dx = (b-a)/N` and `xᵢ = a + i·dx`. -/
theorem operationA_sum_formula (f : ℚ → ℚ) (a b : ℚ) (N : ℕ) (hN : 1 ≤ N) :
    simpsonFn f a b N
      = (b - a) / (N : ℚ) / 6 *
          ∑ i in Finset.range N,
            (f (a + i*((b - a)/(N : ℚ)))
              + 4 * f (a + i*((b - a)/(N : ℚ)) + ((b - a)/(N : ℚ))/2)
              + f (a + i*((b - a)/(N : ℚ)) + (b - a)/(N : ℚ))) := by
  simp only [simpsonFn]
  rw [simpsonLoopF_eq_sum]
  ring

/-- C3 witness. -/
theorem operationA_sum_formula_witness :
    simpsonFn (fun t => t) 0 1 2
      = (1 - 0) / ((2:ℕ) : ℚ) / 6 *
          ∑ i in Finset.range 2,
            ((fun t => t) (0 + i*((1 - 0)/((2:ℕ) : ℚ)))
              + 4 * (fun t => t) (0 + i*((1 - 0)/((2:ℕ) : ℚ)) + ((1 - 0)/((2:ℕ) : ℚ))/2)
              + (fun t => t) (0 + i*((1 - 0)/((2:ℕ) : ℚ)) + (1 - 0)/((2:ℕ) : ℚ))) :=
  operationA_sum_formula (fun t => t) 0 1 2 (by norm_num)

/-- C6: the compile-time-`NN` entry point returns exactly what the runtime
entry point returns at `N = NN`. -/
theorem operationB_eq_operationA (f : ℚ → ℚ) (a b : ℚ) (NN : ℕ) (hNN : 1 ≤ NN) :
    simpsonFnFixed f a b NN = simpsonFn f a b NN := by
  simp only [simpsonFnFixed, simpsonFn, simpsonLoopFFixed_eq]

/-- C6 witness. -/
theorem operationB_eq_operationA_witness :
    simpsonFnFixed (fun t => t^2) 0 1 3 = simpsonFn (fun t => t^2) 0 1 3 :=
  operationB_eq_operationA (fun t => t^2) 0 1 3 (by norm_num)

/-- C4: Operations A and B are exact on every polynomial of degree ≤ 3, for
every pair of bounds and every N ≥ 1. -/
theorem operationA_exact_cubic (c0 c1 c2 c3 a b : ℚ) (N : ℕ) (hN : 1 ≤ N) :
    simpsonFn (cubicEval c0 c1 c2 c3) a b N
        = cubicPrim c0 c1 c2 c3 b - cubicPrim c0 c1 c2 c3 a
      ∧ simpsonFnFixed (cubicEval c0 c1 c2 c3) a b N
        = cubicPrim c0 c1 c2 c3 b - cubicPrim c0 c1 c2 c3 a := by
  have hNq : (N : ℚ) ≠ 0 := Nat.cast_ne_zero.mpr (by omega)
  have key : simpsonFn (cubicEval c0 c1 c2 c3) a b N
      = cubicPrim c0 c1 c2 c3 b - cubicPrim c0 c1 c2 c3 a := by
    simp only [simpsonFn]
    rw [simpsonLoopF_cubic]
    have hab : a + (N : ℚ) * ((b - a)/(N : ℚ)) = b := by field_simp
    rw [hab]
  refine ⟨key, ?_⟩
  rw [← key]
  simp only [simpsonFnFixed, simpsonFn, simpsonLoopFFixed_eq]

/-- C4 witness. -/
theorem operationA_exact_cubic_witness :
    simpsonFn (cubicEval 0 0 0 1) 0 2 1 = cubicPrim 0 0 0 1 2 - cubicPrim 0 0 0 1 0
      ∧ simpsonFnFixed (cubicEval 0 0 0 1) 0 2 1
        = cubicPrim 0 0 0 1 2 - cubicPrim 0 0 0 1 0 :=
  operationA_exact_cubic 0 0 0 1 0 2 1 (by norm_num)

/-- C9: Operation C applied to two-element containers returns 0 whatever the
element values are: the triple loop's bound `size - 2 = 0` is immediately
false and the tail branch additionally requires `size > 2`. -/
theorem operationC_size_two (a b c d : ℚ) :
    simpsonDataNonuniform [a, b] [c, d] = 0 := by
  simp only [simpsonDataNonuniform]
  rw [simpsonLoopC]
  norm_num

/-- C8: Operation D on y = [0, 1, 4, 9] with dx = 1 (even count: tail path
taken) returns exactly 9 = ∫₀³ x² dx. -/
theorem operationD_tail_example : simpsonDataUniform [0, 1, 4, 9] 1 = 9 := by
  have hloop : simpsonLoopD [0, 1, 4, 9] 0 = 8 := by
    rw [simpsonLoopD, dif_pos (by norm_num), simpsonLoopD, dif_neg (by norm_num)]
    norm_num [gD]
  simp only [simpsonDataUniform]
  rw [hloop]
  norm_num [tailContribD, gD, LagrangePolynomial]

/-- C10: when the middle abscissa is exactly the midpoint of the outer two (all
distinct), the interpolated value collapses to `y1` and the triple's
contribution is the classic Simpson term. -/
theorem tripleContrib_midpoint_collapse (x0 x1 x2 y0 y1 y2 : ℚ)
    (hmid : x1 = (x0 + x2)/2) (h01 : x0 ≠ x1) (h12 : x1 ≠ x2) (h02 : x0 ≠ x2) :
    interpAt ((x0 + x2)/2) x0 x1 x2 y0 y1 y2 = y1
      ∧ tripleContrib x0 x1 x2 y0 y1 y2 = (x2 - x0)/6 * (y0 + 4*y1 + y2) := by
  subst hmid
  have h := interp_midpoint_collapse x0 x2 y0 y1 y2 h02
  exact ⟨h, by rw [tripleContrib, h]⟩

/-- C10 witness. -/
theorem tripleContrib_midpoint_collapse_witness :
    interpAt ((0 + 2)/2) 0 1 2 5 7 11 = 7
      ∧ tripleContrib 0 1 2 5 7 11 = (2 - 0)/6 * (5 + 4*7 + 11) :=
  tripleContrib_midpoint_collapse 0 1 2 5 7 11 (by norm_num) (by norm_num)
    (by norm_num) (by norm_num)

/-- C1: Operation C equals the spec's formula: over each full triple, Simpson's
rule with the unique interpolating quadratic evaluated at the true midpoint;
exactly when the count is even (and > 2), one extra tail term over the last
pair using the quadratic through the last three points at the midpoint of the
last two. -/
theorem operationC_matches_spec (x y : List ℚ) (hlen : y.length = x.length)
    (h3 : 3 ≤ x.length) (hmono : x.Pairwise (· < ·) ∨ x.Pairwise (· > ·)) :
    simpsonDataNonuniform x y = specSimpsonC x y := by
  have hsum : simpsonLoopC x y 0
      = ∑ k in Finset.range ((x.length - 1)/2),
          specTriple (gD x (2*k)) (gD x (2*k+1)) (gD x (2*k+2))
            (gD y (2*k)) (gD y (2*k+1)) (gD y (2*k+2)) := by
    rw [simpsonLoopC_eq_sum]
    apply Finset.sum_congr rfl
    intro k hk
    have hk' := Finset.mem_range.mp hk
    have h22 : 2*k + 2 < x.length := by omega
    have d01 : gD x (2*k) ≠ gD x (2*k+1) := gD_ne_of_mono hmono (by omega) (by omega)
    have d02 : gD x (2*k) ≠ gD x (2*k+2) := gD_ne_of_mono hmono (by omega) h22
    have d12 : gD x (2*k+1) ≠ gD x (2*k+2) := gD_ne_of_mono hmono (by omega) h22
    rw [tripleContrib, specTriple, interp_eq_newton _ _ _ _ _ _ _ d01 d02 d12]
  have htail : tailContribC x y
      = (gD x (x.length-1) - gD x (x.length-2)) / 6 *
          (gD y (x.length-2)
            + 4 * newtonQuadEval (gD x (x.length-3)) (gD x (x.length-2)) (gD x (x.length-1))
                    (gD y (x.length-3)) (gD y (x.length-2)) (gD y (x.length-1))
                    ((gD x (x.length-2) + gD x (x.length-1))/2)
            + gD y (x.length-1)) := by
    simp only [tailContribC]
    rw [show x.length - 3 + 1 = x.length - 2 from by omega,
        show x.length - 3 + 2 = x.length - 1 from by omega]
    have d01 : gD x (x.length-3) ≠ gD x (x.length-2) :=
      gD_ne_of_mono hmono (by omega) (by omega)
    have d02 : gD x (x.length-3) ≠ gD x (x.length-1) :=
      gD_ne_of_mono hmono (by omega) (by omega)
    have d12 : gD x (x.length-2) ≠ gD x (x.length-1) :=
      gD_ne_of_mono hmono (by omega) (by omega)
    rw [interp_eq_newton _ _ _ _ _ _ _ d01 d02 d12]
  simp only [simpsonDataNonuniform, specSimpsonC]
  by_cases hpar : x.length % 2 = 0
  · rw [if_pos hpar, if_pos (show 2 < x.length from by omega),
        if_pos (show x.length % 2 = 0 ∧ 2 < x.length from ⟨hpar, by omega⟩),
        hsum, htail]
  · rw [if_neg hpar, if_neg (show ¬(x.length % 2 = 0 ∧ 2 < x.length) from fun hc => hpar hc.1),
        hsum, add_zero]

/-- C1 witness. -/
theorem operationC_matches_spec_witness :
    simpsonDataNonuniform [0, 1, 3] [0, 1, 9] = specSimpsonC [0, 1, 3] [0, 1, 9] :=
  operationC_matches_spec [0, 1, 3] [0, 1, 9] (by norm_num) (by norm_num)
    (Or.inl (by norm_num))

/-- C2: Operation D equals the spec's formula: `(dx/3)` times the accumulated
triple sum, plus — exactly when the sample count is even — a separate
`(dx/6)`-scaled tail term built from the quadratic interpolant through the
last three samples at local offsets 0, dx, 2dx, evaluated at 3dx/2. -/
theorem operationD_matches_spec (y : List ℚ) (dx : ℚ) (h3 : 3 ≤ y.length)
    (hdx : dx ≠ 0) :
    simpsonDataUniform y dx = specSimpsonD y dx := by
  have d01 : (0:ℚ) ≠ dx := Ne.symm hdx
  have d02 : (0:ℚ) ≠ 2*dx := by intro hc; apply hdx; linarith
  have d12 : dx ≠ 2*dx := by intro hc; apply hdx; linarith
  have htail : tailContribD y dx
      = dx/6 * (gD y (y.length-2)
          + 4 * newtonQuadEval 0 dx (2*dx)
                  (gD y (y.length-3)) (gD y (y.length-2)) (gD y (y.length-1)) (3*dx/2)
          + gD y (y.length-1)) := by
    simp only [tailContribD]
    rw [show y.length - 3 + 1 = y.length - 2 from by omega,
        show y.length - 3 + 2 = y.length - 1 from by omega]
    have key := interp_eq_newton (3*dx/2) 0 dx (2*dx)
      (gD y (y.length-3)) (gD y (y.length-2)) (gD y (y.length-1)) d01 d02 d12
    simp only [interpAt] at key
    rw [key]
  simp only [simpsonDataUniform, specSimpsonD]
  rw [simpsonLoopD_eq_sum]
  by_cases hpar : y.length % 2 = 0
  · rw [if_pos hpar, if_pos hpar, htail, mul_comm]
  · rw [if_neg hpar, if_neg hpar, add_zero, mul_comm]

/-- C2 witness. -/
theorem operationD_matches_spec_witness :
    simpsonDataUniform [0, 1, 4, 9] 1 = specSimpsonD [0, 1, 4, 9] 1 :=
  operationD_matches_spec [0, 1, 4, 9] 1 (by norm_num) (by norm_num)

/-- C5: feeding the evenly spaced abscissas `x[i] = x0 + i·dx` into Operation C
gives exactly Operation D's result on the same ordinates and step, tail path
included. -/
theorem operationC_uniform_consistency (y : List ℚ) (x0 dx : ℚ)
    (h3 : 3 ≤ y.length) (hdx : dx ≠ 0) :
    simpsonDataNonuniform (uniformAbscissas x0 dx y.length) y
      = simpsonDataUniform y dx := by
  have hlen : (uniformAbscissas x0 dx y.length).length = y.length :=
    uniformAbscissas_length _ _ _
  have hsum : simpsonLoopC (uniformAbscissas x0 dx y.length) y 0
      = simpsonLoopD y 0 * (dx / 3) := by
    rw [simpsonLoopC_eq_sum, simpsonLoopD_eq_sum, hlen, Finset.sum_mul]
    apply Finset.sum_congr rfl
    intro k hk
    have hk' := Finset.mem_range.mp hk
    have h22 : 2*k + 2 < y.length := by omega
    rw [gD_uniformAbscissas x0 dx (show 2*k < y.length from by omega),
        gD_uniformAbscissas x0 dx (show 2*k+1 < y.length from by omega),
        gD_uniformAbscissas x0 dx h22]
    rw [show x0 + ((2*k+1 : ℕ) : ℚ)*dx = (x0 + ((2*k : ℕ) : ℚ)*dx) + dx from by
          push_cast; ring,
        show x0 + ((2*k+2 : ℕ) : ℚ)*dx = (x0 + ((2*k : ℕ) : ℚ)*dx) + 2*dx from by
          push_cast; ring]
    rw [tripleContrib_uniform _ _ _ _ _ hdx]
    ring
  have htail : tailContribC (uniformAbscissas x0 dx y.length) y = tailContribD y dx := by
    simp only [tailContribC, tailContribD, hlen]
    rw [show y.length - 3 + 1 = y.length - 2 from by omega,
        show y.length - 3 + 2 = y.length - 1 from by omega]
    rw [gD_uniformAbscissas x0 dx (show y.length - 3 < y.length from by omega),
        gD_uniformAbscissas x0 dx (show y.length - 2 < y.length from by omega),
        gD_uniformAbscissas x0 dx (show y.length - 1 < y.length from by omega)]
    have c3 : ((y.length - 3 : ℕ) : ℚ) = (y.length : ℚ) - 3 := by
      rw [Nat.cast_sub (by omega)]; norm_num
    have c2 : ((y.length - 2 : ℕ) : ℚ) = (y.length : ℚ) - 2 := by
      rw [Nat.cast_sub (by omega)]; norm_num
    have c1 : ((y.length - 1 : ℕ) : ℚ) = (y.length : ℚ) - 1 := by
      rw [Nat.cast_sub (by omega)]; norm_num
    rw [c3, c2, c1]
    rw [show x0 + ((y.length : ℚ) - 2)*dx = (x0 + ((y.length : ℚ) - 3)*dx) + dx from by
          ring,
        show x0 + ((y.length : ℚ) - 1)*dx = (x0 + ((y.length : ℚ) - 3)*dx) + 2*dx from by
          ring]
    rw [interp_tail_uniform]
    rw [show (x0 + ((y.length : ℚ) - 3)*dx) + 2*dx - ((x0 + ((y.length : ℚ) - 3)*dx) + dx)
          = dx from by ring]
    simp only [interpAt]
  simp only [simpsonDataNonuniform, simpsonDataUniform, hlen]
  by_cases hpar : y.length % 2 = 0
  · rw [if_pos hpar, if_pos (show 2 < y.length from by omega), if_pos hpar, hsum, htail]
  · rw [if_neg hpar, if_neg hpar, hsum]

/-- C5 witness. -/
theorem operationC_uniform_consistency_witness :
    simpsonDataNonuniform (uniformAbscissas 0 1 ([0, 1, 4, 9] : List ℚ).length) [0, 1, 4, 9]
      = simpsonDataUniform [0, 1, 4, 9] 1 :=
  operationC_uniform_consistency [0, 1, 4, 9] 0 1 (by norm_num) (by norm_num)

/-- C7: Operation A over [a,b] is the exact negation of Operation A over [b,a]
with the same integrand and subdivision count. -/
theorem operationA_reversal (f : ℚ → ℚ) (a b : ℚ) (N : ℕ) (hN : 1 ≤ N) :
    simpsonFn f a b N = - simpsonFn f b a N := by
  have hNq : (N : ℚ) ≠ 0 := Nat.cast_ne_zero.mpr (by omega)
  simp only [simpsonFn]
  rw [simpsonLoopF_eq_sum, simpsonLoopF_eq_sum]
  have hdx' : (a - b)/(N : ℚ) = -((b - a)/(N : ℚ)) := by ring
  rw [hdx']
  have hb : b = a + (N : ℚ) * ((b - a)/(N : ℚ)) := by field_simp
  set dx := (b - a)/(N : ℚ) with hdxeq
  have hsum : (∑ i in Finset.range N,
        (f (b + (i : ℚ)*(-dx)) + 4 * f (b + (i : ℚ)*(-dx) + -dx/2)
          + f (b + (i : ℚ)*(-dx) + -dx)))
      = ∑ i in Finset.range N,
        (f (a + (i : ℚ)*dx) + 4 * f (a + (i : ℚ)*dx + dx/2) + f (a + (i : ℚ)*dx + dx)) := by
    conv_rhs => rw [← Finset.sum_range_reflect]
    apply Finset.sum_congr rfl
    intro j hj
    have hj' := Finset.mem_range.mp hj
    have c1 : ((N - 1 - j : ℕ) : ℚ) = (N : ℚ) - 1 - (j : ℚ) := by
      rw [Nat.cast_sub (by omega), Nat.cast_sub (by omega)]
      norm_num
    rw [c1, hb]
    ring_nf
  rw [hsum]
  ring

/-- C7 witness. -/
theorem operationA_reversal_witness :
    simpsonFn (fun t => t^2) 0 1 2 = - simpsonFn (fun t => t^2) 1 0 2 :=
  operationA_reversal (fun t => t^2) 0 1 2 (by norm_num)
